import Mathlib

/-!
Verification of the go-collection library (package `collection`).

The library's `Collection[T]` is a Go 1.23 push iterator
(`func(yield func(T) bool)`).  We embed each operator shallowly:

* an operator that, when drained with an always-continue consumer, yields a
  deterministic sequence of values is modelled as a `List`-valued function
  obtained by specialising its Go loop to a list source (`slices.Values`);
* the early-termination protocol that claim C1 is about is modelled
  operationally: each combinator's loop body is a consumer transformer
  (`yield func(T) bool` maps to `α → Bool`), and a counting drain over the
  list source records how many elements the producer was advanced over;
* Go `error` values are modelled by the inductive `GoErr`: the package-level
  sentinel errors (`ErrNoElement`, `ErrEmptyCollection`, ...) are dedicated
  constructors, and a call-site `errors.New(msg)` is `GoErr.adhoc msg`,
  distinct from every sentinel (as in Go, where `errors.New` allocates a
  fresh error value).
-/

namespace GoCollection

/-! ## Early-stop protocol (claim C1)

`Where` is

```go
for v := range *c { if f(v) && !yield(v) { return } }
```

so as the consumer handed to its source, its loop body returns `false`
exactly when `f(v) && !yield(v)`.  `Select` is

```go
for v := range *c { if !yield(f(v)) { return } }
```

A list source (`slices.Values`) pushes elements in order until the consumer
returns `false`.
-/

/-- Loop body of `Where(f)` as a transformation of the downstream consumer:
continue (`true`) unless `f v` holds and the downstream consumer stops. -/
def whereConsumer (f : α → Bool) (yield : α → Bool) : α → Bool :=
  fun v => !(f v && !(yield v))

/-- Loop body of `Select(g)` as a transformation of the downstream consumer. -/
def selectConsumer (g : α → β) (yield : β → Bool) : α → Bool :=
  fun v => yield (g v)

/-- Drain of a list source (`slices.Values`) against a consumer, returning
how many elements the producer was advanced over: each loop iteration pulls
one element, and iteration ends after the first element on which the
consumer returns `false` (or when the list is exhausted). -/
def drainPulls (c : α → Bool) : List α → Nat
  | [] => 0
  | v :: rest => if c v then drainPulls c rest + 1 else 1

/-- Number of source elements pulled when `Where(pred).Select(g)` over the
list source `xs` is drained with outer consumer `k`. -/
def whereSelectPulls (pred : α → Bool) (g : α → β) (k : β → Bool) (xs : List α) : Nat :=
  drainPulls (whereConsumer pred (selectConsumer g k)) xs

/-- Operational drain of `Where(pred).Select(g)` over the list source `xs`
with outer consumer `k`, obtained by inlining the two loop bodies above into
the source loop.  Returns the number of source elements pulled together with
the list of values delivered to the outer consumer `k`, in delivery order. -/
def whereSelectDrain (pred : α → Bool) (g : α → β) (k : β → Bool) :
    List α → Nat × List β
  | [] => (0, [])
  | v :: rest =>
      if pred v then
        if k (g v) then
          let r := whereSelectDrain pred g k rest
          (r.1 + 1, g v :: r.2)
        else
          (1, [g v])
      else
        let r := whereSelectDrain pred g k rest
        (r.1 + 1, r.2)

/-- The inlined drain pulls exactly as many elements as the compositional
consumer-transformer semantics says. -/
theorem whereSelectDrain_pulls (pred : α → Bool) (g : α → β) (k : β → Bool)
    (xs : List α) : (whereSelectDrain pred g k xs).1 = whereSelectPulls pred g k xs := by
  induction xs with
  | nil => rfl
  | cons v rest ih =>
      simp only [whereSelectDrain, whereSelectPulls, drainPulls, whereConsumer,
        selectConsumer] at *
      by_cases hp : pred v = true
      · by_cases hk : k (g v) = true
        · simp [hp, hk, ih]
        · simp at hk
          simp [hp, hk]
      · simp at hp
        simp [hp, ih]

/-- Sanity: with an always-continue consumer, the whole source is pulled and
the delivered values are exactly `(xs.filter pred).map g` (the denotational
reading of `Where` then `Select`). -/
theorem whereSelectDrain_total (pred : α → Bool) (g : α → β) (xs : List α) :
    whereSelectDrain pred g (fun _ => true) xs = (xs.length, (xs.filter pred).map g) := by
  induction xs with
  | nil => rfl
  | cons v rest ih =>
      by_cases hp : pred v = true
      · simp [whereSelectDrain, hp, ih, List.filter_cons]
      · simp at hp
        simp [whereSelectDrain, hp, ih, List.filter_cons]

/-! ## Take / Skip / Concat (claim C2)

Direct translations of the Go loops, with the Go `int` counter modelled as
`Int` (its initial value is `0` and it only increments, so overflow is not
reachable for finite lists):

```go
// Take
count := 0
for v := range *c { if count < n { if !yield(v) { return }; count++ } else { return } }
// Skip
count := 0
for v := range *c { if count >= n { if !yield(v) { return } }; count++ }
```
-/

/-- Loop of `Take(n)` over a list source, starting at counter value `count`. -/
def takeLoop (n : Int) : List α → Int → List α
  | [], _ => []
  | v :: rest, count => if count < n then v :: takeLoop n rest (count + 1) else []

/-- `Take(n)`: the Go loop starts with `count := 0`. -/
def TakeGo (n : Int) (xs : List α) : List α := takeLoop n xs 0

/-- Loop of `Skip(n)` over a list source, starting at counter value `count`. -/
def skipLoop (n : Int) : List α → Int → List α
  | [], _ => []
  | v :: rest, count =>
      if count ≥ n then v :: skipLoop n rest (count + 1) else skipLoop n rest (count + 1)

/-- `Skip(n)`: the Go loop starts with `count := 0`. -/
def SkipGo (n : Int) (xs : List α) : List α := skipLoop n xs 0

/-- `Concat` drains the first collection in full, then the second, so over
list sources it is list append. -/
def ConcatGo (xs ys : List α) : List α := xs ++ ys

theorem skipLoop_of_le (n : Int) (xs : List α) :
    ∀ count : Int, n ≤ count → skipLoop n xs count = xs := by
  induction xs with
  | nil => intro count _; rfl
  | cons v rest ih =>
      intro count h
      have h1 : n ≤ count + 1 := le_trans h (by omega)
      simp [skipLoop, h, ih (count + 1) h1]

theorem takeLoop_append_skipLoop (n : Int) (xs : List α) :
    ∀ count : Int, takeLoop n xs count ++ skipLoop n xs count = xs := by
  induction xs with
  | nil => intro count; rfl
  | cons v rest ih =>
      intro count
      by_cases h : count < n
      · have h2 : ¬ count ≥ n := by omega
        simp [takeLoop, skipLoop, h, h2, ih (count + 1)]
      · have h2 : count ≥ n := by omega
        have h3 : n ≤ count + 1 := by omega
        simp [takeLoop, skipLoop, h, h2, skipLoop_of_le n rest (count + 1) h3]

/-! ## Zip (claim C3)

```go
for {
    v1, ok1 := <-iter1
    if !ok1 { break }
    v2, ok2 := <-iter2
    if !ok2 { break }
    if !yield(zipper(v1, v2)) { return }
}
```

The two producer goroutines feed the channels with the elements of the two
sources in order; the loop therefore consumes the two lists in lockstep and
stops as soon as either is exhausted.
-/

/-- `Zip(c1, c2, zipper)` over two list sources. -/
def zipGo (f : α → β → γ) : List α → List β → List γ
  | [], _ => []
  | _ :: _, [] => []
  | v1 :: rest1, v2 :: rest2 => f v1 v2 :: zipGo f rest1 rest2

theorem zipGo_length (f : α → β → γ) :
    ∀ (xs : List α) (ys : List β), (zipGo f xs ys).length = min xs.length ys.length := by
  intro xs
  induction xs with
  | nil => intro ys; simp [zipGo]
  | cons v1 rest1 ih =>
      intro ys
      cases ys with
      | nil => simp [zipGo]
      | cons v2 rest2 =>
          simp [zipGo, ih rest2]
          omega

theorem zipGo_getElem? (f : α → β → γ) :
    ∀ (xs : List α) (ys : List β) (i : Nat),
      (zipGo f xs ys)[i]? = (xs[i]?).bind fun x => (ys[i]?).map (f x) := by
  intro xs
  induction xs with
  | nil => intro ys i; simp [zipGo]
  | cons v1 rest1 ih =>
      intro ys i
      cases ys with
      | nil => simp [zipGo]
      | cons v2 rest2 =>
          cases i with
          | zero => simp [zipGo]
          | succ j => simp [zipGo, ih rest2 j]

/-- The combiner of the spec's concrete Zip scenario: the decimal rendering
of the integer concatenated with the string. -/
def intStrConcat (n : Int) (s : String) : String := toString n ++ s

/-! ## Min / Max (claim C4)

```go
func Min[T NumericalTypes](c *Collection[T]) T {
    min := T(0)
    first := true
    for t := range *c {
        if first || t < min { min = t }
        first = false
    }
    return min
}
```

(`Max` is identical with `>`.)  We model the numeric type family generically
by a type with a zero value and a decidable strict order, which covers every
instantiation Go's `NumericalTypes` constraint admits.
-/

/-- Loop of `Min` with accumulator `m` and the `first` flag. -/
def minLoop {T : Type} [Zero T] [LT T] [DecidableRel ((· < ·) : T → T → Prop)] :
    List T → T → Bool → T
  | [], m, _ => m
  | t :: rest, m, first => minLoop rest (if first then t else if t < m then t else m) false

/-- `Min`: starts from `T(0)` with `first = true`. -/
def MinGo {T : Type} [Zero T] [LT T] [DecidableRel ((· < ·) : T → T → Prop)]
    (xs : List T) : T := minLoop xs 0 true

/-- Loop of `Max` with accumulator `m` and the `first` flag. -/
def maxLoop {T : Type} [Zero T] [LT T] [DecidableRel ((· < ·) : T → T → Prop)] :
    List T → T → Bool → T
  | [], m, _ => m
  | t :: rest, m, first => maxLoop rest (if first then t else if m < t then t else m) false

/-- `Max`: starts from `T(0)` with `first = true`. -/
def MaxGo {T : Type} [Zero T] [LT T] [DecidableRel ((· < ·) : T → T → Prop)]
    (xs : List T) : T := maxLoop xs 0 true

/-! ## Errors and AverageOrError (claim C5)

```go
var ErrNoElement = errors.New("no element")
var ErrIndexOutOfRange = errors.New("index out of range")
var ErrEmptyCollection = errors.New("empty collection")
var ErrNotExactlyOneElement = errors.New("not exactly one element")

func AverageOrError[T NumericalTypes](c *Collection[T]) (*big.Float, error) {
    sum := float64(0)
    count := 0
    for t := range *c { sum += float64(t); count++ }
    if count == 0 {
        return nil, errors.New("cannot compute average of empty collection")
    }
    return big.NewFloat(sum / float64(count)), nil
}
```
-/

/-- Go `error` values of the package.  The four package-level sentinels are
dedicated constructors; `adhoc msg` is an `errors.New(msg)` allocated at a
call site, which in Go is a fresh value distinct from every sentinel. -/
inductive GoErr : Type where
  | errNoElement : GoErr
  | errIndexOutOfRange : GoErr
  | errEmptyCollection : GoErr
  | errNotExactlyOneElement : GoErr
  | adhoc : String → GoErr
deriving DecidableEq

/-- `AverageOrError` over a list source.  The element/result arithmetic
(`float64` accumulation, `big.Float` result) is modelled over `ℚ`; the
claim under verification only concerns the error behaviour, which does not
depend on the numeric representation. -/
def AverageOrErrorGo (xs : List ℚ) : Except GoErr ℚ :=
  let sum : ℚ := xs.foldl (fun acc t => acc + t) 0
  let count : Nat := xs.length
  if count = 0 then
    .error (.adhoc "cannot compute average of empty collection")
  else
    .ok (sum / count)

/-! ## GroupBy (claim C6)

```go
func (c *Collection[T]) GroupBy(keySelector func(x T) any) map[any]*Collection[T] {
    groups := make(map[any]*Collection[T])
    for v := range *c {
        key := keySelector(v)
        if group, exists := groups[key]; exists {
            current := group.ToSlice()
            current = append(current, v)
            groups[key] = NewFromSlice(current)
        } else {
            groups[key] = NewFromSlice([]T{v})
        }
    }
    return groups
}
```

The result is a built-in Go map.  We model its contents as an association
list with pairwise-distinct keys; the position of an entry in this list is
bookkeeping (first-insertion order) that the Go map does not expose: per the
Go specification the iteration order over a map is unspecified, so any
permutation of the entries is an admissible observation of `range`.  Map key
equality on `any` is structural (dynamic type and value), modelled by
decidable equality on the key type.
-/

/-- One iteration of the `GroupBy` loop: append `v` to the group keyed `k`,
or create the fresh group `[v]` if `k` is not present. -/
def addToGroups {K : Type} [DecidableEq K] (gs : List (K × List T)) (k : K) (v : T) :
    List (K × List T) :=
  match gs with
  | [] => [(k, [v])]
  | (k₀, vs) :: rest =>
      if k₀ = k then (k₀, vs ++ [v]) :: rest else (k₀, vs) :: addToGroups rest k v

/-- `GroupBy(keySelector)` over a list source: fold the loop body over the
elements, starting from the empty map. -/
def GroupByGo {K : Type} [DecidableEq K] (sel : T → K) (xs : List T) :
    List (K × List T) :=
  xs.foldl (fun gs v => addToGroups gs (sel v) v) []

/-- Go map lookup `m[k]` on the association-list model (order-independent
because the keys are pairwise distinct). -/
def lookupGroups {K : Type} [DecidableEq K] : List (K × List T) → K → Option (List T)
  | [], _ => none
  | (k₀, vs) :: rest, k => if k₀ = k then some vs else lookupGroups rest k

/-- The admissible results of `for k, v := range m` on a Go map with entry
list `entries`: the Go specification leaves map iteration order unspecified,
so any permutation of the entries may be observed. -/
def goMapIterOrder {K : Type} (entries observed : List (K × List T)) : Prop :=
  List.Perm observed entries

/-- How a group accumulated so far (`none` = key absent from the map) is
extended by the elements `l` that still hash to it. -/
def combineOpt (o : Option (List T)) (l : List T) : Option (List T) :=
  match o with
  | none => if l.isEmpty then none else some l
  | some vs => some (vs ++ l)

theorem combineOpt_nil (o : Option (List T)) : combineOpt o [] = o := by
  cases o with
  | none => rfl
  | some vs => simp [combineOpt]

theorem combineOpt_cons (o : Option (List T)) (v : T) (l : List T) :
    combineOpt (some ((o.getD []) ++ [v])) l = combineOpt o (v :: l) := by
  cases o with
  | none => simp [combineOpt]
  | some vs => simp [combineOpt]

theorem lookupGroups_addToGroups {K : Type} [DecidableEq K]
    (gs : List (K × List T)) (k₀ : K) (v : T) (k : K) :
    lookupGroups (addToGroups gs k₀ v) k =
      if k₀ = k then some (((lookupGroups gs k).getD []) ++ [v])
      else lookupGroups gs k := by
  induction gs with
  | nil =>
      by_cases h : k₀ = k
      · simp [addToGroups, lookupGroups, h]
      · simp [addToGroups, lookupGroups, h]
  | cons p rest ih =>
      obtain ⟨k₁, vs⟩ := p
      by_cases h1 : k₁ = k₀
      · subst h1
        by_cases h2 : k₁ = k
        · simp [addToGroups, lookupGroups, h2]
        · simp [addToGroups, lookupGroups, h2]
      · by_cases h2 : k₁ = k
        · subst h2
          have h3 : ¬ k₀ = k₁ := fun hh => h1 hh.symm
          simp [addToGroups, lookupGroups, h1, h3]
        · simp [addToGroups, lookupGroups, h1, h2, ih]

theorem lookupGroups_foldl {K : Type} [DecidableEq K] (sel : T → K) (k : K) :
    ∀ (xs : List T) (gs : List (K × List T)),
      lookupGroups (xs.foldl (fun gs v => addToGroups gs (sel v) v) gs) k =
        combineOpt (lookupGroups gs k) (xs.filter (fun x => sel x = k)) := by
  intro xs
  induction xs with
  | nil => intro gs; simp [combineOpt_nil]
  | cons v rest ih =>
      intro gs
      by_cases h : sel v = k
      · simp only [List.foldl_cons, ih, lookupGroups_addToGroups, h, if_pos]
        rw [combineOpt_cons]
        congr 1
        simp [List.filter_cons, h]
      · simp only [List.foldl_cons, ih, lookupGroups_addToGroups, h, if_neg]
        congr 1
        simp [List.filter_cons, h]

/-! ## Aggregate (claim C7)

```go
func (c *Collection[T]) Aggregate(seed any, accumulator func(result any, item T) any) any {
    result := seed
    for item := range *c { result = accumulator(result, item) }
    return result
}
```

`aggLoop` is the loop instrumented to also record, in order, the argument
pair of every invocation of the accumulator.
-/

/-- The `Aggregate` loop over a list source, also returning the trace of
`(result, item)` argument pairs the accumulator is invoked on, in order. -/
def aggLoop (f : A → T → A) : List T → A → A × List (A × T)
  | [], acc => (acc, [])
  | x :: rest, acc =>
      let r := aggLoop f rest (f acc x)
      (r.1, (acc, x) :: r.2)

/-- `Aggregate(seed, accumulator)` over a list source. -/
def AggregateGo (f : A → T → A) (xs : List T) (seed : A) : A := (aggLoop f xs seed).1

theorem aggLoop_fst (f : A → T → A) :
    ∀ (xs : List T) (seed : A), (aggLoop f xs seed).1 = xs.foldl f seed := by
  intro xs
  induction xs with
  | nil => intro seed; rfl
  | cons x rest ih => intro seed; simp [aggLoop, ih]

theorem aggLoop_trace_items (f : A → T → A) :
    ∀ (xs : List T) (seed : A), ((aggLoop f xs seed).2).map Prod.snd = xs := by
  intro xs
  induction xs with
  | nil => intro seed; rfl
  | cons x rest ih => intro seed; simp [aggLoop, ih]

/-! ## Distinct (claim C8)

```go
seen := make([]T, 0)
for v := range *c {
    unique := true
    for _, s := range seen {
        if equals(v, s) { unique = false; break }
    }
    if unique {
        seen = append(seen, v)
        if !yield(v) { return }
    }
}
```
-/

/-- The `Distinct` loop over a list source, carrying the `seen` buffer. -/
def distinctLoop (eq : α → α → Bool) : List α → List α → List α
  | [], _ => []
  | v :: rest, seen =>
      if seen.any (fun s => eq v s) then distinctLoop eq rest seen
      else v :: distinctLoop eq rest (seen ++ [v])

/-- `Distinct(equals)` over a list source: the loop starts with an empty
`seen` buffer. -/
def DistinctGo (eq : α → α → Bool) (xs : List α) : List α := distinctLoop eq xs []

/-- Every forwarded element matches (per `eq`, new element first) neither the
initial `seen` buffer nor any earlier forwarded element. -/
theorem distinctLoop_invariant (eq : α → α → Bool) :
    ∀ (xs seen : List α),
      (∀ w ∈ distinctLoop eq xs seen, (seen.any fun s => eq w s) = false) ∧
      List.Pairwise (fun a b => eq b a = false) (distinctLoop eq xs seen) := by
  intro xs
  induction xs with
  | nil => intro seen; simp [distinctLoop]
  | cons v rest ih =>
      intro seen
      by_cases h : (seen.any fun s => eq v s) = true
      · simpa [distinctLoop, h] using ih seen
      · have h0 : (seen.any fun s => eq v s) = false := by
          simpa using h
        obtain ⟨ih1, ih2⟩ := ih (seen ++ [v])
        have hmem : ∀ w ∈ distinctLoop eq rest (seen ++ [v]),
            (seen.any fun s => eq w s) = false ∧ eq w v = false := by
          intro w hw
          have := ih1 w hw
          simp only [List.any_append, List.any_cons, List.any_nil,
            Bool.or_eq_false_iff] at this
          exact ⟨this.1, by simpa using this.2⟩
        constructor
        · intro w hw
          simp only [distinctLoop, h0, Bool.false_eq_true, if_false,
            List.mem_cons] at hw
          rcases hw with hw | hw
          · subst hw; exact h0
          · exact (hmem w hw).1
        · simp only [distinctLoop, h0, Bool.false_eq_true, if_false]
          exact List.pairwise_cons.mpr ⟨fun w hw => (hmem w hw).2, ih2⟩

/-- A list whose elements avoid the `seen` buffer and are pairwise `eq`-new
passes through the `Distinct` loop unchanged. -/
theorem distinctLoop_fixed (eq : α → α → Bool) :
    ∀ (l seen : List α),
      (∀ w ∈ l, (seen.any fun s => eq w s) = false) →
      List.Pairwise (fun a b => eq b a = false) l →
      distinctLoop eq l seen = l := by
  intro l
  induction l with
  | nil => intro seen _ _; rfl
  | cons v rest ih =>
      intro seen h1 h2
      have hv : (seen.any fun s => eq v s) = false := h1 v (by simp)
      obtain ⟨hhead, htail⟩ := List.pairwise_cons.mp h2
      have hrest : ∀ w ∈ rest, ((seen ++ [v]).any fun s => eq w s) = false := by
        intro w hw
        simp only [List.any_append, List.any_cons, List.any_nil,
          Bool.or_eq_false_iff]
        exact ⟨h1 w (by simp [hw]), by simpa using hhead w hw⟩
      simp [distinctLoop, hv, ih (seen ++ [v]) hrest htail]

end GoCollection

open GoCollection

/-! ## Claim theorems -/

/-- Claim C1, counterexample: draining `Where(x = 2).Select(id)` over the
source `[1, 2]` with a consumer that stops after the first delivered element
delivers exactly one element, yet the source is pulled twice, not once:
`Where` advances the producer past the non-matching element `1` before the
first delivery. -/
theorem claim_C1_counterexample :
    (whereSelectDrain (fun x : Nat => decide (x = 2)) (fun x => x)
        (fun _ => false) [1, 2]).2.length = 1 ∧
    ¬ (whereSelectDrain (fun x : Nat => decide (x = 2)) (fun x => x)
        (fun _ => false) [1, 2]).1 = 1 := by
  constructor
  · rfl
  · decide

/-- Claim C1 (amended): draining `Where(pred).Select(g)` with a consumer
that stops after the first delivered element pulls the source exactly
through the first element satisfying `pred` — one pull more than the length
of the failing prefix, so exactly once when the first element satisfies
`pred` — and never advances the producer after the stop signal; the single
delivered value is `g` of that first satisfying element. -/
theorem claim_C1 (xs : List α) (pred : α → Bool) (g : α → β)
    (h : xs.any pred = true) :
    (whereSelectDrain pred g (fun _ => false) xs).1
        = (xs.takeWhile (fun v => !(pred v))).length + 1 ∧
    (whereSelectDrain pred g (fun _ => false) xs).2
        = ((xs.dropWhile (fun v => !(pred v))).take 1).map g := by
  induction xs with
  | nil => simp at h
  | cons v rest ih =>
      by_cases hp : pred v = true
      · simp [whereSelectDrain, hp, List.takeWhile_cons, List.dropWhile_cons]
      · simp only [List.any_cons, Bool.or_eq_true] at h
        rcases h with h | h
        · exact absurd h hp
        · obtain ⟨ih1, ih2⟩ := ih h
          simp only [Bool.not_eq_true] at hp
          simp [whereSelectDrain, hp, List.takeWhile_cons, List.dropWhile_cons,
            ih1, ih2]

/-- Witness for the amended claim C1 at the source `[1, 2]` with predicate
`x = 2`: the hypothesis (some element satisfies the predicate) holds, the
source is pulled twice (failing prefix of length 1, plus one), and the
single delivered value is `2`. -/
theorem claim_C1_witness :
    ([1, 2].any (fun x : Nat => decide (x = 2))) = true ∧
    ((whereSelectDrain (fun x : Nat => decide (x = 2)) (fun x => x)
        (fun _ => false) [1, 2]).1
        = ([1, 2].takeWhile (fun v => !(decide (v = 2)))).length + 1 ∧
     (whereSelectDrain (fun x : Nat => decide (x = 2)) (fun x => x)
        (fun _ => false) [1, 2]).2
        = (([1, 2].dropWhile (fun v => !(decide (v = 2)))).take 1).map (fun x => x)) :=
  ⟨by decide, claim_C1 [1, 2] (fun x => decide (x = 2)) (fun x => x) (by decide)⟩

/-- Claim C2: for every finite sequence `S` and every `n` with
`0 ≤ n ≤ len(S)`, draining `Concat(Take(S, n), Skip(S, n))` yields exactly
the elements of `S` in their original order. -/
theorem claim_C2 (S : List α) (n : Int) (_h0 : 0 ≤ n) (_h1 : n ≤ (S.length : Int)) :
    ConcatGo (TakeGo n S) (SkipGo n S) = S :=
  takeLoop_append_skipLoop n S 0

/-- Witness for claim C2 at `S = [10, 20, 30]`, `n = 2`. -/
theorem claim_C2_witness :
    (0 : Int) ≤ 2 ∧ (2 : Int) ≤ (([10, 20, 30] : List Nat).length : Int) ∧
    ConcatGo (TakeGo 2 [10, 20, 30]) (SkipGo 2 [10, 20, 30]) = [10, 20, 30] :=
  ⟨by decide, by decide, claim_C2 [10, 20, 30] 2 (by decide) (by decide)⟩

/-- Claim C3: `Zip(a, b, combiner)` yields `combiner(a[i], b[i])`
positionally for `i` up to the shorter length and stops as soon as either
source is exhausted (its length is the minimum of the two lengths, and the
element at any index is present exactly when both sources have one there);
in particular the spec's two concrete scenarios hold. -/
theorem claim_C3 :
    (∀ (α β γ : Type) (f : α → β → γ) (a : List α) (b : List β),
        (zipGo f a b).length = min a.length b.length ∧
        ∀ i : Nat, (zipGo f a b)[i]? = (a[i]?).bind fun x => (b[i]?).map (f x)) ∧
    zipGo intStrConcat [1, 2, 3] ["a", "b", "c"] = ["1a", "2b", "3c"] ∧
    zipGo intStrConcat [1, 2] ["a", "b", "c"] = ["1a", "2b"] := by
  refine ⟨fun α β γ f a b => ⟨zipGo_length f a b, fun i => zipGo_getElem? f a b i⟩, ?_, ?_⟩
  · rfl
  · rfl

/-- Claim C4: `Min` and `Max` on an empty collection return the zero value
of the element type (for any type with a zero and a decidable strict order,
which covers Go's whole `NumericalTypes` family) and raise no error —
the functions are total. -/
theorem claim_C4 (T : Type) [Zero T] [LT T]
    [DecidableRel ((· < ·) : T → T → Prop)] :
    MinGo ([] : List T) = 0 ∧ MaxGo ([] : List T) = 0 :=
  ⟨rfl, rfl⟩

/-- Claim C5, counterexample: `AverageOrError` on the empty collection does
not fail with the `ErrEmptyCollection` sentinel — it allocates a fresh
`errors.New("cannot compute average of empty collection")` instead. -/
theorem claim_C5_counterexample :
    AverageOrErrorGo [] ≠ Except.error GoErr.errEmptyCollection := by
  intro h
  simp [AverageOrErrorGo] at h

/-- Claim C5 (amended): `AverageOrError` on the empty collection fails, but
with a fresh ad-hoc error value (message "cannot compute average of empty
collection"), not with the `ErrEmptyCollection` sentinel; on every
non-empty collection it succeeds. -/
theorem claim_C5 :
    AverageOrErrorGo [] =
        Except.error (GoErr.adhoc "cannot compute average of empty collection") ∧
    ∀ xs : List ℚ, (AverageOrErrorGo xs).isOk = !xs.isEmpty := by
  refine ⟨rfl, fun xs => ?_⟩
  cases xs with
  | nil => rfl
  | cons x rest => simp [AverageOrErrorGo, Except.isOk, Except.toBool]

/-- Claim C6, counterexample: `GroupBy` returns a built-in Go map, whose
`range` order is unspecified; for the source `["a", "b"]` grouped by
identity, presenting the `"b"` entry first is an admissible iteration order
of the result, and it differs from first-seen key order — so first-seen key
order is not preserved by the returned mapping. -/
theorem claim_C6_counterexample :
    goMapIterOrder (GroupByGo (fun s : String => s) ["a", "b"])
        [("b", ["b"]), ("a", ["a"])] ∧
    [("b", ["b"]), ("a", ["a"])] ≠ GroupByGo (fun s : String => s) ["a", "b"] := by
  constructor
  · show List.Perm [("b", ["b"]), ("a", ["a"])]
        (GroupByGo (fun s : String => s) ["a", "b"])
    decide
  · decide

/-- Claim C6 (amended): `GroupBy` produces a mapping from key to the list of
all elements sharing that key, in their original insertion order, with keys
compared by structural equality; looking up any key returns exactly the
elements whose selected key equals it (`none` when there are none).  The
mapping is an unordered Go map, so no key iteration order — in particular
not first-seen order — is preserved. -/
theorem claim_C6 {T K : Type} [DecidableEq K] (sel : T → K) (xs : List T) (k : K) :
    lookupGroups (GroupByGo sel xs) k =
      (if (xs.filter (fun x => sel x = k)).isEmpty then none
       else some (xs.filter (fun x => sel x = k))) := by
  have h := lookupGroups_foldl sel k xs []
  simpa [GroupByGo, combineOpt, lookupGroups] using h

/-- Claim C7: `Aggregate(seed, accumulator)` over an empty sequence returns
the seed unchanged with the accumulator never invoked (empty invocation
trace); over any sequence it is a strict left fold whose accumulator is
invoked exactly once per element, in order (the invocation trace's items are
the source elements themselves). -/
theorem claim_C7 :
    (∀ (A T : Type) (f : A → T → A) (seed : A),
        AggregateGo f ([] : List T) seed = seed ∧
        (aggLoop f ([] : List T) seed).2 = []) ∧
    (∀ (A T : Type) (f : A → T → A) (seed : A) (xs : List T),
        ((aggLoop f xs seed).2).map Prod.snd = xs ∧
        AggregateGo f xs seed = xs.foldl f seed) :=
  ⟨fun _ _ _ _ => ⟨rfl, rfl⟩,
   fun _ _ f seed xs => ⟨aggLoop_trace_items f xs seed, aggLoop_fst f xs seed⟩⟩

/-- Claim C8: `Distinct` is idempotent for an arbitrary binary equality
function (no equivalence-relation assumption): applying `Distinct` to its
own output, with the same equality function, returns the output unchanged,
element for element and in the same order. -/
theorem claim_C8 {α : Type} (eq : α → α → Bool) (xs : List α) :
    DistinctGo eq (DistinctGo eq xs) = DistinctGo eq xs :=
  distinctLoop_fixed eq (distinctLoop eq xs []) []
    (fun _ _ => rfl) (distinctLoop_invariant eq xs []).2
